import Mathlib

/-!
# Verification of the `mcan` CAN-FD configuration layer (`src/bus.rs`)

This file gives a shallow embedding of the configuration layer of the `mcan`
CAN-FD peripheral driver and proves (or refutes) the specification claims
about it.

The embedding covers:

* an exact model of IEEE-754 binary32 ("`f32`") round-to-nearest-even
  arithmetic on nonnegative values in the normal range, used by the
  bit-timing divider computation in `apply_bus_config`;
* the bit-timing calculator `apply_bus_config`;
* the message-RAM layout planner `apply_ram_config`, with an explicit
  register-write log;
* peripheral construction `CanConfigurable::new` and `finalize`, with an
  explicit event trace recording mode transitions.

Machine integers are modelled as `Nat` with explicit `% 2^w` at the points
where the source performs an `as` cast.  `f32` values are modelled as exact
rationals paired with ∞/NaN constructors.  All definitions are computable so
that concrete runs of the code can be evaluated inside proofs.
-/

namespace Mcan

/-! ## Binary length of a natural number

`blen n` is the number of binary digits of `n` (`0` for `0`).  It is defined
with explicit fuel so that the kernel can evaluate it on concrete inputs.
-/

/-- `blenAux fuel n` is the number of binary digits of `n`, provided
`n ≤ fuel`. -/
def blenAux : Nat → Nat → Nat
  | 0, _ => 0
  | fuel + 1, n => if n = 0 then 0 else blenAux fuel (n / 2) + 1

/-- Number of binary digits of `n` (`0` for `n = 0`). -/
def blen (n : Nat) : Nat := blenAux n n

theorem blenAux_zero (fuel : Nat) : blenAux fuel 0 = 0 := by
  cases fuel <;> simp [blenAux]

theorem blenAux_spec (fuel : Nat) :
    ∀ n, 0 < n → n ≤ fuel → 2 ^ (blenAux fuel n - 1) ≤ n ∧ n < 2 ^ blenAux fuel n := by
  induction fuel with
  | zero => intro n hn hle; omega
  | succ f ih =>
    intro n hn hle
    have hne : n ≠ 0 := by omega
    rw [blenAux, if_neg hne]
    rcases Nat.eq_zero_or_pos (n / 2) with h2 | h2
    · have hn1 : n = 1 := by omega
      subst hn1
      rw [show (1 : Nat) / 2 = 0 from rfl, blenAux_zero]
      norm_num
    · have hdle : n / 2 ≤ f := by omega
      obtain ⟨hlo, hhi⟩ := ih (n / 2) h2 hdle
      set B := blenAux f (n / 2) with hB
      have hBpos : 1 ≤ B := by
        rcases Nat.eq_zero_or_pos B with h0 | h1
        · rw [h0, pow_zero] at hhi; omega
        · exact h1
      have hs : B + 1 - 1 = B := by omega
      rw [hs]
      constructor
      · have h1 : 2 ^ (B - 1) * 2 ≤ (n / 2) * 2 := Nat.mul_le_mul_right 2 hlo
        have h2' : 2 ^ (B - 1) * 2 = 2 ^ B := by
          rw [← Nat.pow_succ]
          congr 1
          omega
        have h3 : (n / 2) * 2 ≤ n := Nat.div_mul_le_self n 2
        omega
      · have h4 : n / 2 < 2 ^ B := hhi
        rw [Nat.pow_succ]
        omega

theorem blen_spec {n : Nat} (hn : 0 < n) :
    2 ^ (blen n - 1) ≤ n ∧ n < 2 ^ blen n :=
  blenAux_spec n n hn le_rfl

theorem blen_pos {n : Nat} (hn : 0 < n) : 1 ≤ blen n := by
  by_contra hc
  obtain ⟨-, hhi⟩ := blen_spec hn
  have : blen n = 0 := by omega
  rw [this] at hhi
  omega

/-! ## Kernel-friendly rational helpers

`Rat.add`/`Rat.mul`/`Rat.inv` do not reduce inside the kernel, so the
computable definitions below are built from `mkRat`, `Rat.floor` and the
primitive integer operations, which do.  Bridge lemmas relate them to the
ordinary field operations for use in proofs.
-/

/-- `2 ^ k` as a rational, for an integer exponent `k`. -/
def pow2 (k : ℤ) : ℚ :=
  if 0 ≤ k then mkRat ((2 ^ k.toNat : ℕ) : ℤ) 1 else mkRat 1 (2 ^ (-k).toNat)

/-- Kernel-reducible product of rationals. -/
def qmul (a b : ℚ) : ℚ := mkRat (a.num * b.num) (a.den * b.den)

/-- Kernel-reducible difference of rationals. -/
def qsub (a b : ℚ) : ℚ :=
  mkRat (a.num * (b.den : ℤ) - b.num * (a.den : ℤ)) (a.den * b.den)

/-- Kernel-reducible quotient of rationals; intended for a positive
denominator. -/
def qdivPos (a b : ℚ) : ℚ := mkRat (a.num * (b.den : ℤ)) (a.den * b.num.toNat)

theorem pow2_eq (k : ℤ) : pow2 k = (2 : ℚ) ^ k := by
  unfold pow2
  split
  · next h =>
    rw [Rat.mkRat_one]
    push_cast
    rw [← zpow_natCast (2 : ℚ) k.toNat, Int.toNat_of_nonneg h]
  · next h =>
    push_neg at h
    rw [Rat.mkRat_eq_div]
    push_cast
    rw [one_div, ← zpow_natCast (2 : ℚ) (-k).toNat,
      Int.toNat_of_nonneg (by omega : (0 : ℤ) ≤ -k), ← zpow_neg, neg_neg]

theorem mul_den_eq_num (q : ℚ) : q * (q.den : ℚ) = q.num := by
  have h := Rat.num_div_den q
  calc q * (q.den : ℚ) = ((q.num : ℚ) / (q.den : ℚ)) * (q.den : ℚ) := by rw [h]
    _ = q.num := div_mul_cancel₀ _ (Nat.cast_ne_zero.mpr q.den_nz)

theorem qmul_eq (a b : ℚ) : qmul a b = a * b := by
  unfold qmul
  have ha : (a.den : ℚ) ≠ 0 := Nat.cast_ne_zero.mpr a.den_nz
  have hb : (b.den : ℚ) ≠ 0 := Nat.cast_ne_zero.mpr b.den_nz
  rw [Rat.mkRat_eq_div]
  push_cast
  rw [div_eq_iff (mul_ne_zero ha hb)]
  linear_combination (-(b.num : ℚ)) * mul_den_eq_num a -
    a * (a.den : ℚ) * mul_den_eq_num b

theorem qsub_eq (a b : ℚ) : qsub a b = a - b := by
  unfold qsub
  have ha : (a.den : ℚ) ≠ 0 := Nat.cast_ne_zero.mpr a.den_nz
  have hb : (b.den : ℚ) ≠ 0 := Nat.cast_ne_zero.mpr b.den_nz
  rw [Rat.mkRat_eq_div]
  push_cast
  rw [div_eq_iff (mul_ne_zero ha hb)]
  linear_combination (-(b.den : ℚ)) * mul_den_eq_num a +
    (a.den : ℚ) * mul_den_eq_num b

theorem qdivPos_eq (a : ℚ) {b : ℚ} (hb : 0 < b) : qdivPos a b = a / b := by
  unfold qdivPos
  have hbnum : 0 < b.num := Rat.num_pos.mpr hb
  have h1 : b.num.toNat = b.num := Int.toNat_of_nonneg hbnum.le
  have ha : (a.den : ℚ) ≠ 0 := Nat.cast_ne_zero.mpr a.den_nz
  have hbn : (b.num : ℚ) ≠ 0 := Int.cast_ne_zero.mpr hbnum.ne'
  rw [Rat.mkRat_eq_div]
  have h1q : ((b.num.toNat : ℕ) : ℚ) = (b.num : ℚ) := by exact_mod_cast h1
  rw [show ((a.den * b.num.toNat : ℕ) : ℚ) = (a.den : ℚ) * (b.num : ℚ) by
    push_cast [h1q]; ring]
  push_cast
  rw [div_eq_div_iff (mul_ne_zero ha hbn) hb.ne']
  linear_combination (-((b.den : ℚ) * b)) * mul_den_eq_num a +
    a * (a.den : ℚ) * mul_den_eq_num b

/-! ## Round to nearest, ties to even -/

theorem ratFloor_eq (q : ℚ) : q.floor = ⌊q⌋ := by
  rw [Rat.floor_def', Rat.floor_def]

/-- Round a rational to the nearest integer, ties to even. -/
def rne (x : ℚ) : ℤ :=
  if qsub x (mkRat x.floor 1) < mkRat 1 2 then x.floor
  else if mkRat 1 2 < qsub x (mkRat x.floor 1) then x.floor + 1
  else if x.floor % 2 = 0 then x.floor else x.floor + 1

theorem rne_eq (x : ℚ) :
    rne x =
      if x - (⌊x⌋ : ℚ) < 1 / 2 then ⌊x⌋
      else if 1 / 2 < x - (⌊x⌋ : ℚ) then ⌊x⌋ + 1
      else if ⌊x⌋ % 2 = 0 then ⌊x⌋ else ⌊x⌋ + 1 := by
  have h2 : (mkRat 1 2 : ℚ) = 1 / 2 := by
    rw [Rat.mkRat_eq_div]; norm_num
  simp only [rne, qsub_eq, Rat.mkRat_one, ratFloor_eq, h2]

theorem rne_intCast (n : ℤ) : rne (n : ℚ) = n := by
  rw [rne_eq]
  rw [Int.floor_intCast]
  norm_num

theorem rne_natCast (n : ℕ) : rne (n : ℚ) = (n : ℤ) := by
  have h := rne_intCast ((n : ℕ) : ℤ)
  rw [show (((n : ℕ) : ℤ) : ℚ) = ((n : ℕ) : ℚ) by push_cast; ring] at h
  exact h

theorem rne_le_ceil (x : ℚ) : rne x ≤ ⌈x⌉ := by
  rw [rne_eq]
  split
  · exact Int.floor_le_ceil x
  · next h =>
    push_neg at h
    have hlt : (⌊x⌋ : ℚ) < x := by linarith
    have hfc : ⌊x⌋ < ⌈x⌉ := Int.lt_ceil.mpr hlt
    split
    · omega
    · split <;> omega

/-! ## The binary exponent of a positive rational -/

/-- The integer `e` with `2 ^ e ≤ x < 2 ^ (e + 1)`, for `x > 0`. -/
def findExp (x : ℚ) : ℤ :=
  if pow2 ((blen x.num.toNat : ℤ) - (blen x.den : ℤ)) ≤ x then
    (blen x.num.toNat : ℤ) - (blen x.den : ℤ)
  else (blen x.num.toNat : ℤ) - (blen x.den : ℤ) - 1

theorem findExp_spec {x : ℚ} (hx : 0 < x) :
    (2 : ℚ) ^ findExp x ≤ x ∧ x < (2 : ℚ) ^ (findExp x + 1) := by
  have hnum : 0 < x.num := Rat.num_pos.mpr hx
  have ha : 0 < x.num.toNat := by omega
  have hb : 0 < x.den := Nat.pos_of_ne_zero x.den_nz
  obtain ⟨haL, haU⟩ := blen_spec ha
  obtain ⟨hbL, hbU⟩ := blen_spec hb
  have hla := blen_pos ha
  have hlb := blen_pos hb
  set a := x.num.toNat with ha_def
  set b := x.den with hb_def
  set la := blen a with hla_def
  set lb := blen b with hlb_def
  have hxab : x = (a : ℚ) / (b : ℚ) := by
    rw [← Rat.num_div_den x]
    congr 1
    exact_mod_cast (Int.toNat_of_nonneg hnum.le).symm
  have haq : (0 : ℚ) < a := by exact_mod_cast ha
  have hbq : (0 : ℚ) < b := by exact_mod_cast hb
  -- cast the `blen` bounds into ℚ with integer exponents
  have haL' : (2 : ℚ) ^ ((la : ℤ) - 1) ≤ (a : ℚ) := by
    have h := haL
    have : ((2 ^ (la - 1) : ℕ) : ℚ) ≤ (a : ℚ) := by exact_mod_cast h
    rw [show ((2 ^ (la - 1) : ℕ) : ℚ) = (2 : ℚ) ^ ((la : ℤ) - 1) by
      push_cast
      rw [← zpow_natCast (2 : ℚ) (la - 1)]
      congr 1
      omega] at this
    exact this
  have haU' : (a : ℚ) < (2 : ℚ) ^ (la : ℤ) := by
    have : (a : ℚ) < ((2 ^ la : ℕ) : ℚ) := by exact_mod_cast haU
    rw [show ((2 ^ la : ℕ) : ℚ) = (2 : ℚ) ^ (la : ℤ) by push_cast; rw [zpow_natCast]] at this
    exact this
  have hbL' : (2 : ℚ) ^ ((lb : ℤ) - 1) ≤ (b : ℚ) := by
    have : ((2 ^ (lb - 1) : ℕ) : ℚ) ≤ (b : ℚ) := by exact_mod_cast hbL
    rw [show ((2 ^ (lb - 1) : ℕ) : ℚ) = (2 : ℚ) ^ ((lb : ℤ) - 1) by
      push_cast
      rw [← zpow_natCast (2 : ℚ) (lb - 1)]
      congr 1
      omega] at this
    exact this
  have hbU' : (b : ℚ) < (2 : ℚ) ^ (lb : ℤ) := by
    have : (b : ℚ) < ((2 ^ lb : ℕ) : ℚ) := by exact_mod_cast hbU
    rw [show ((2 ^ lb : ℕ) : ℚ) = (2 : ℚ) ^ (lb : ℤ) by push_cast; rw [zpow_natCast]] at this
    exact this
  have hlow : (2 : ℚ) ^ ((la : ℤ) - lb - 1) < x := by
    rw [hxab]
    have step1 : (2 : ℚ) ^ ((la : ℤ) - 1) / (2 : ℚ) ^ (lb : ℤ) <
        (2 : ℚ) ^ ((la : ℤ) - 1) / (b : ℚ) :=
      div_lt_div_of_pos_left (zpow_pos two_pos _) hbq hbU'
    have step2 : (2 : ℚ) ^ ((la : ℤ) - 1) / (b : ℚ) ≤ (a : ℚ) / (b : ℚ) := by
      gcongr
    calc (2 : ℚ) ^ ((la : ℤ) - lb - 1)
        = (2 : ℚ) ^ ((la : ℤ) - 1) / (2 : ℚ) ^ (lb : ℤ) := by
          rw [← zpow_sub₀ (two_ne_zero)]
          congr 1
          ring
      _ < (a : ℚ) / (b : ℚ) := lt_of_lt_of_le step1 step2
  have hup : x < (2 : ℚ) ^ ((la : ℤ) - lb + 1) := by
    rw [hxab]
    have step1 : (a : ℚ) / (b : ℚ) ≤ (a : ℚ) / (2 : ℚ) ^ ((lb : ℤ) - 1) := by
      gcongr
    have step2 : (a : ℚ) / (2 : ℚ) ^ ((lb : ℤ) - 1) <
        (2 : ℚ) ^ (la : ℤ) / (2 : ℚ) ^ ((lb : ℤ) - 1) := by
      gcongr
    calc (a : ℚ) / (b : ℚ) ≤ (a : ℚ) / (2 : ℚ) ^ ((lb : ℤ) - 1) := step1
      _ < (2 : ℚ) ^ (la : ℤ) / (2 : ℚ) ^ ((lb : ℤ) - 1) := step2
      _ = (2 : ℚ) ^ ((la : ℤ) - lb + 1) := by
          rw [← zpow_sub₀ (two_ne_zero)]
          congr 1
          ring
  unfold findExp
  split
  · next h =>
    rw [pow2_eq] at h
    exact ⟨h, by simpa using hup⟩
  · next h =>
    rw [pow2_eq] at h
    push_neg at h
    constructor
    · exact le_of_lt (by simpa using hlow)
    · simpa using h

/-! ## Binary32 rounding

`rnd32 x` is `x` rounded to the nearest IEEE-754 binary32 value
(round-to-nearest, ties-to-even), for `x` in the normal range.  Every value
that reaches it in this development lies well inside the normal range
(between `2 ^ (-64)` and `2 ^ 64`), where this is exactly the `f32`
behaviour.
-/

/-- Round `x ≥ 0` to the nearest binary32 value (ties to even). -/
def rnd32 (x : ℚ) : ℚ :=
  if x ≤ 0 then 0
  else qmul (mkRat (rne (qmul x (pow2 (23 - findExp x)))) 1) (pow2 (findExp x - 23))

theorem rnd32_pos_eq {x : ℚ} (hx : 0 < x) :
    rnd32 x =
      ((rne (x * (2 : ℚ) ^ ((23 : ℤ) - findExp x)) : ℤ) : ℚ) *
        (2 : ℚ) ^ (findExp x - 23) := by
  rw [rnd32, if_neg (not_le.mpr hx), qmul_eq, Rat.mkRat_one, qmul_eq, pow2_eq, pow2_eq]

theorem rnd32_zero : rnd32 0 = 0 := by
  rw [rnd32, if_pos le_rfl]

/-- Exactness: a dyadic value `m * 2 ^ k` with a mantissa of at most 24 bits
is returned unchanged by binary32 rounding. -/
theorem rnd32_dyadic {m : ℕ} (k : ℤ) (hm0 : 0 < m) (hm : m ≤ 2 ^ 24) :
    rnd32 ((m : ℚ) * (2 : ℚ) ^ k) = (m : ℚ) * (2 : ℚ) ^ k := by
  have hmq : (0 : ℚ) < m := by exact_mod_cast hm0
  have hmq' : (m : ℚ) ≤ 2 ^ 24 := by exact_mod_cast hm
  set x : ℚ := (m : ℚ) * 2 ^ k with hxdef
  have hx : 0 < x := mul_pos hmq (zpow_pos two_pos k)
  obtain ⟨hle, hlt⟩ := findExp_spec hx
  set e := findExp x with he_def
  have hxle : x ≤ (2 : ℚ) ^ (k + 24) := by
    calc x = (m : ℚ) * 2 ^ k := rfl
      _ ≤ (2 ^ 24 : ℚ) * 2 ^ k := by
          exact mul_le_mul_of_nonneg_right hmq' (le_of_lt (zpow_pos two_pos k))
      _ = (2 : ℚ) ^ (k + 24) := by
          rw [show ((2 : ℚ) ^ 24 : ℚ) = (2 : ℚ) ^ (24 : ℤ) by norm_cast]
          rw [← zpow_add₀ two_ne_zero]
          congr 1
          ring
  have heup : e ≤ k + 24 := by
    have h2 : (2 : ℚ) ^ e ≤ (2 : ℚ) ^ (k + 24) := le_trans hle hxle
    exact (zpow_le_zpow_iff_right₀ one_lt_two).mp h2
  rcases lt_or_eq_of_le heup with hlt24 | heq
  · have hj : (0 : ℤ) ≤ k + 23 - e := by omega
    have hs : x * (2 : ℚ) ^ ((23 : ℤ) - e) = ((m * 2 ^ (k + 23 - e).toNat : ℕ) : ℚ) := by
      push_cast
      rw [← zpow_natCast (2 : ℚ) (k + 23 - e).toNat, Int.toNat_of_nonneg hj]
      rw [hxdef, mul_assoc, ← zpow_add₀ two_ne_zero]
      congr 2
      ring
    rw [rnd32_pos_eq hx, ← he_def, hs, rne_natCast]
    push_cast
    rw [← zpow_natCast (2 : ℚ) (k + 23 - e).toNat, Int.toNat_of_nonneg hj,
      mul_assoc, ← zpow_add₀ two_ne_zero]
    congr 2
    ring
  · have hxle' : x ≤ (2 : ℚ) ^ e := by rw [heq]; exact hxle
    have hxeq : x = (2 : ℚ) ^ e := le_antisymm hxle' hle
    have hs : x * (2 : ℚ) ^ ((23 : ℤ) - e) = ((2 ^ 23 : ℕ) : ℚ) := by
      rw [hxeq, ← zpow_add₀ two_ne_zero]
      rw [show e + ((23 : ℤ) - e) = (23 : ℤ) by ring]
      norm_num
    rw [rnd32_pos_eq hx, ← he_def, hs, rne_natCast]
    push_cast
    rw [hxeq]
    rw [show (8388608 : ℚ) = (2 : ℚ) ^ (23 : ℤ) by norm_num]
    rw [← zpow_add₀ two_ne_zero]
    congr 1
    ring

/-- Exactness for natural numbers of at most 24 bits. -/
theorem rnd32_natCast {n : ℕ} (hn0 : 0 < n) (hn : n ≤ 2 ^ 24) :
    rnd32 (n : ℚ) = (n : ℚ) := by
  have h := rnd32_dyadic (m := n) 0 hn0 hn
  simpa using h

/-- A positive value at most `(2 ^ 24 - 1) / 2 ^ 24` rounds to something
strictly below `1`. -/
theorem rnd32_lt_one {x : ℚ} (hx : 0 < x) (hub : x * 16777216 ≤ 16777215) :
    rnd32 x < 1 := by
  obtain ⟨hle, hlt⟩ := findExp_spec hx
  set e := findExp x with he_def
  have hx1 : x < 1 := by linarith
  have he_neg : e ≤ -1 := by
    have h0 : (2 : ℚ) ^ e < 2 ^ (0 : ℤ) := lt_of_le_of_lt hle (by simpa using hx1)
    have := (zpow_lt_zpow_iff_right₀ one_lt_two).mp h0
    omega
  have hs_pos : (0 : ℚ) < x * (2 : ℚ) ^ ((23 : ℤ) - e) :=
    mul_pos hx (zpow_pos two_pos _)
  have hs_lt : x * (2 : ℚ) ^ ((23 : ℤ) - e) < (2 : ℚ) ^ (24 : ℤ) := by
    calc x * (2 : ℚ) ^ ((23 : ℤ) - e) < (2 : ℚ) ^ (e + 1) * (2 : ℚ) ^ ((23 : ℤ) - e) :=
          mul_lt_mul_of_pos_right hlt (zpow_pos two_pos _)
      _ = (2 : ℚ) ^ (24 : ℤ) := by
          rw [← zpow_add₀ two_ne_zero]
          congr 1
          ring
  have hrne := rne_le_ceil (x * (2 : ℚ) ^ ((23 : ℤ) - e))
  rw [rnd32_pos_eq hx, ← he_def]
  rcases lt_or_eq_of_le he_neg with he2 | he1
  · -- e ≤ -2
    have hceil : ⌈x * (2 : ℚ) ^ ((23 : ℤ) - e)⌉ ≤ (2 ^ 24 : ℤ) := by
      apply Int.ceil_le.mpr
      push_cast
      have h224 : ((2 : ℚ) ^ (24 : ℤ)) = 16777216 := by norm_num
      linarith [hs_lt]
    have hq : ((rne (x * (2 : ℚ) ^ ((23 : ℤ) - e)) : ℤ) : ℚ) ≤ ((2 ^ 24 : ℤ) : ℚ) := by
      exact_mod_cast le_trans hrne hceil
    calc ((rne (x * (2 : ℚ) ^ ((23 : ℤ) - e)) : ℤ) : ℚ) * (2 : ℚ) ^ (e - 23)
        ≤ ((2 ^ 24 : ℤ) : ℚ) * (2 : ℚ) ^ (e - 23) :=
          mul_le_mul_of_nonneg_right hq (le_of_lt (zpow_pos two_pos _))
      _ = (2 : ℚ) ^ (e + 1) := by
          push_cast
          rw [show (16777216 : ℚ) = (2 : ℚ) ^ (24 : ℤ) by norm_num]
          rw [← zpow_add₀ two_ne_zero]
          congr 1
          ring
      _ ≤ (2 : ℚ) ^ (-1 : ℤ) := by
          apply (zpow_le_zpow_iff_right₀ one_lt_two).mpr
          omega
      _ < 1 := by norm_num
  · -- e = -1
    have hs_ub : x * (2 : ℚ) ^ ((23 : ℤ) - e) ≤ 16777215 := by
      rw [he1, show (23 : ℤ) - (-1) = (24 : ℤ) by ring,
        show ((2 : ℚ) ^ (24 : ℤ)) = 16777216 by norm_num]
      linarith
    have hceil : ⌈x * (2 : ℚ) ^ ((23 : ℤ) - e)⌉ ≤ (16777215 : ℤ) := by
      apply Int.ceil_le.mpr
      exact_mod_cast hs_ub
    have hq : ((rne (x * (2 : ℚ) ^ ((23 : ℤ) - e)) : ℤ) : ℚ) ≤ ((16777215 : ℤ) : ℚ) := by
      exact_mod_cast le_trans hrne hceil
    calc ((rne (x * (2 : ℚ) ^ ((23 : ℤ) - e)) : ℤ) : ℚ) * (2 : ℚ) ^ (e - 23)
        ≤ ((16777215 : ℤ) : ℚ) * (2 : ℚ) ^ (e - 23) :=
          mul_le_mul_of_nonneg_right hq (le_of_lt (zpow_pos two_pos _))
      _ = 16777215 * (2 : ℚ) ^ (-24 : ℤ) := by
          rw [he1, show (-1 : ℤ) - 23 = (-24 : ℤ) by ring]
          push_cast
          ring
      _ < 1 := by norm_num

/-! ## `f32` values and operations

Only nonnegative values arise in the divider computation (all inputs are
unsigned integers), so negative floats and `-∞` are not represented.
-/

/-- An `f32` value: NaN, `+∞`, or a finite nonnegative value given by its
exact rational payload. -/
inductive F32 where
  | nan : F32
  | inf : F32
  | finite : ℚ → F32
deriving DecidableEq

/-- Finite overflow threshold of binary32: values rounding to `2 ^ 128` or
beyond become `+∞`. -/
def F32.roundQ (x : ℚ) : F32 :=
  if pow2 128 ≤ rnd32 x then .inf else .finite (rnd32 x)

/-- `n as f32` for an unsigned integer `n` (correctly rounded). -/
def F32.ofU32 (n : Nat) : F32 := F32.roundQ (mkRat (n : ℤ) 1)

/-- `f32` multiplication (nonnegative operands). -/
def F32.mul : F32 → F32 → F32
  | .nan, _ => .nan
  | _, .nan => .nan
  | .inf, .inf => .inf
  | .inf, .finite v => if v = 0 then .nan else .inf
  | .finite v, .inf => if v = 0 then .nan else .inf
  | .finite u, .finite v => F32.roundQ (qmul u v)

/-- `f32` division (nonnegative operands). -/
def F32.div : F32 → F32 → F32
  | .nan, _ => .nan
  | _, .nan => .nan
  | .inf, .inf => .nan
  | .inf, .finite _ => .inf
  | .finite _, .inf => .finite 0
  | .finite u, .finite v =>
      if v = 0 then (if u = 0 then .nan else .inf) else F32.roundQ (qdivPos u v)

/-- `f32::is_nan`. -/
def F32.isNaN : F32 → Bool
  | .nan => true
  | _ => false

/-- `f32::is_infinite`. -/
def F32.isInf : F32 → Bool
  | .inf => true
  | _ => false

/-- `f32` comparison `a < r` against a nonnegative constant (false on NaN). -/
def F32.ltQ : F32 → ℚ → Bool
  | .nan, _ => false
  | .inf, _ => false
  | .finite v, r => decide (v < r)

/-- `f32` comparison `a >= r` against a nonnegative constant (false on NaN,
true on `+∞`). -/
def F32.geQ : F32 → ℚ → Bool
  | .nan, _ => false
  | .inf, _ => true
  | .finite v, r => decide (r ≤ v)

/-- Model of `f32::to_int_unchecked::<u32>`: truncation toward zero.  The
`nan`/`inf` results are junk values; `truncSafe` states the absence of
undefined behaviour. -/
def F32.truncU32 : F32 → Nat
  | .finite v => v.floor.toNat
  | _ => 0

/-- The documented safety precondition of `f32::to_int_unchecked::<u32>`:
the value is finite and its truncation lies within `u32` range. -/
def F32.truncSafe (a : F32) : Prop :=
  ∃ v : ℚ, a = .finite v ∧ 0 ≤ v ∧ v < 2 ^ 32

/-! ## Data model of the configuration layer (`src/bus.rs`)

`BusTiming`/`CanConfig`/`RamConfig` mirror the configuration structs consumed
by `apply_bus_config`/`apply_ram_config`; field types are the mathematical
integers carried by the respective `u8`/`u16` hardware fields.
-/

/-- The `timing` part of `CanConfig` as used by `apply_bus_config`. -/
structure BusTiming where
  sjw : Nat
  phase_seg_1 : Nat
  phase_seg_2 : Nat
  ts_prescale : Nat
  ts_select : Nat
deriving DecidableEq

/-- Modelled from the spec: the derived quanta count of a timing config is
the sum of the phase segments plus one synchronization quantum (the body of
`quanta()` lives in the config module, which is not under `src/`). -/
def BusTiming.quanta (t : BusTiming) : Nat := 1 + t.phase_seg_1 + t.phase_seg_2

/-- `TestMode` (loopback configuration). -/
inductive TestMode where
  | disabled : TestMode
  | loopback : TestMode
deriving DecidableEq

/-- The bus config struct consumed by `apply_bus_config`.  The global-filter
selectors `nm_std`/`nm_ext` are carried as raw field values. -/
structure CanConfig where
  timing : BusTiming
  fd_mode : Bool
  bit_rate_switching : Bool
  nm_std : Nat
  nm_ext : Nat
  mode : TestMode
deriving DecidableEq

/-- Rx FIFO part of `RamConfig` (`fom` mode bit and watermark). -/
structure FifoRamConfig where
  mode : Bool
  watermark : Nat
deriving DecidableEq

/-- Tx buffer part of `RamConfig` (`tfqm` queue/FIFO mode bit). -/
structure TxRamConfig where
  mode : Bool
deriving DecidableEq

/-- Tx-event-FIFO part of `RamConfig` (watermark). -/
structure TxEventRamConfig where
  watermark : Nat
deriving DecidableEq

/-- The RAM config struct consumed by `apply_ram_config`. -/
structure RamConfig where
  rxf0 : FifoRamConfig
  rxf1 : FifoRamConfig
  txbc : TxRamConfig
  txefc : TxEventRamConfig
deriving DecidableEq

/-- Modelled from the spec: one message-RAM sub-region of the caller-owned
memory window — its machine address, its element count, and its total size
in bytes.  (The backing arrays of `SharedMemoryInner` live in the
`messageram` module, which is not under `src/`; the register writes read
each region's address and length.) -/
structure MemRegion where
  addr : Nat
  len : Nat
  sizeBytes : Nat
deriving DecidableEq

/-- Modelled from the spec: the initialized message-RAM window with its seven
sub-regions. -/
structure SharedMemoryInner where
  filters_standard : MemRegion
  filters_extended : MemRegion
  rx_dedicated_buffers : MemRegion
  rx_fifo_0 : MemRegion
  rx_fifo_1 : MemRegion
  tx_buffers : MemRegion
  tx_event_fifo : MemRegion
deriving DecidableEq

/-- Modelled from the spec: `is_addressable` — every sub-region address plus
its size must stay within the peripheral's 16-bit (64 KiB) addressable
span. -/
def SharedMemoryInner.is_addressable (m : SharedMemoryInner) : Bool :=
  m.filters_standard.addr + m.filters_standard.sizeBytes ≤ 65536 &&
  m.filters_extended.addr + m.filters_extended.sizeBytes ≤ 65536 &&
  m.rx_dedicated_buffers.addr + m.rx_dedicated_buffers.sizeBytes ≤ 65536 &&
  m.rx_fifo_0.addr + m.rx_fifo_0.sizeBytes ≤ 65536 &&
  m.rx_fifo_1.addr + m.rx_fifo_1.sizeBytes ≤ 65536 &&
  m.tx_buffers.addr + m.tx_buffers.sizeBytes ≤ 65536 &&
  m.tx_event_fifo.addr + m.tx_event_fifo.sizeBytes ≤ 65536

/-- Modelled from the spec: the build-time `Capacities` constants used by
`apply_ram_config` — the element-size register codes (`…::REG`) and the
transmit-buffer partitioning. -/
structure Capacities where
  rxBufferMessageReg : Nat
  rxFifo0MessageReg : Nat
  rxFifo1MessageReg : Nat
  txMessageReg : Nat
  txBuffers : Nat
  dedicatedTxBuffers : Nat
deriving DecidableEq

/-- `ConfigurationError` from `src/bus.rs`. -/
inductive ConfigurationError where
  | invalidDivider : F32 → ConfigurationError
  | zeroDivider : ConfigurationError
  | bitTimeRounding : Nat → ConfigurationError
  | stoppedOutputClock : ConfigurationError
  | zeroQuanta : ConfigurationError
  | dividerIsNaN : ConfigurationError
  | dividerIsInf : ConfigurationError
  | invalidTimeStampPrescaler : ConfigurationError
  | memoryNotAddressable : ConfigurationError
deriving DecidableEq

/-! ## Hardware registers

One structure per register touched by the configuration layer, holding the
fields the code writes.  A `write` in the source replaces the whole
register (missing fields are zeroed by the PAC), a `modify` only replaces
the named field; the model mirrors this by full-structure replacement
vs. single-field update.
-/

/-- Nominal bit timing and prescaler register. -/
structure RegNBTP where
  nsjw : Nat
  ntseg1 : Nat
  ntseg2 : Nat
  nbrp : Nat
deriving DecidableEq

/-- Timestamp counter configuration register. -/
structure RegTSCC where
  tss : Nat
  tcp : Nat
deriving DecidableEq

/-- CC control register (the fields touched by this layer). -/
structure RegCCCR where
  init : Bool
  cce : Bool
  fdoe : Bool
  brse : Bool
  testEnabled : Bool
deriving DecidableEq

/-- Data bit timing register (only `dbrp` is touched). -/
structure RegDBTP where
  dbrp : Nat
deriving DecidableEq

/-- Global filter configuration register. -/
structure RegGFC where
  anfs : Nat
  anfe : Nat
deriving DecidableEq

/-- Test register (only `lbck` is touched). -/
structure RegTEST where
  lbck : Bool
deriving DecidableEq

/-- Standard-ID filter configuration register. -/
structure RegSIDFC where
  flssa : Nat
  lss : Nat
deriving DecidableEq

/-- Extended-ID filter configuration register. -/
structure RegXIDFC where
  flesa : Nat
  lse : Nat
deriving DecidableEq

/-- Rx buffer configuration register. -/
structure RegRXBC where
  rbsa : Nat
deriving DecidableEq

/-- Rx element size configuration register. -/
structure RegRXESC where
  rbds : Nat
  f0ds : Nat
  f1ds : Nat
deriving DecidableEq

/-- Rx FIFO configuration register (used for both FIFO 0 and FIFO 1). -/
structure RegRXFC where
  fom : Bool
  fwm : Nat
  fs : Nat
  fsa : Nat
deriving DecidableEq

/-- Tx buffer configuration register. -/
structure RegTXBC where
  tfqm : Bool
  tfqs : Nat
  ndtb : Nat
  tbsa : Nat
deriving DecidableEq

/-- Tx element size configuration register. -/
structure RegTXESC where
  tbds : Nat
deriving DecidableEq

/-- Tx event FIFO configuration register. -/
structure RegTXEFC where
  efwm : Nat
  efs : Nat
  efsa : Nat
deriving DecidableEq

/-- The register block of the peripheral (the part this layer touches). -/
structure RegState where
  nbtp : RegNBTP
  tscc : RegTSCC
  cccr : RegCCCR
  dbtp : RegDBTP
  gfc : RegGFC
  testr : RegTEST
  sidfc : RegSIDFC
  xidfc : RegXIDFC
  rxbc : RegRXBC
  rxesc : RegRXESC
  rxf0c : RegRXFC
  rxf1c : RegRXFC
  txbc : RegTXBC
  txesc : RegTXESC
  txefc : RegTXEFC
deriving DecidableEq

/-- The reset register block (all fields zero). -/
def RegState.reset : RegState :=
  ⟨⟨0, 0, 0, 0⟩, ⟨0, 0⟩, ⟨false, false, false, false, false⟩, ⟨0⟩, ⟨0, 0⟩,
    ⟨false⟩, ⟨0, 0⟩, ⟨0, 0⟩, ⟨0⟩, ⟨0, 0, 0⟩, ⟨false, 0, 0, 0⟩,
    ⟨false, 0, 0, 0⟩, ⟨false, 0, 0, 0⟩, ⟨0⟩, ⟨0, 0, 0⟩⟩

/-! ## The message-RAM layout planner (`apply_ram_config`) -/

/-- One full-register write performed by `apply_ram_config`, with the values
of all fields of the written register. -/
inductive RegWrite where
  | sidfc : Nat → Nat → RegWrite
  | xidfc : Nat → Nat → RegWrite
  | rxbc : Nat → RegWrite
  | rxesc : Nat → Nat → Nat → RegWrite
  | rxf0c : Bool → Nat → Nat → Nat → RegWrite
  | rxf1c : Bool → Nat → Nat → Nat → RegWrite
  | txbc : Bool → Nat → Nat → Nat → RegWrite
  | txesc : Nat → RegWrite
  | txefc : Nat → Nat → Nat → RegWrite
deriving DecidableEq

/-- Applying one register write to the register block. -/
def applyWrite (s : RegState) : RegWrite → RegState
  | .sidfc flssa lss => { s with sidfc := ⟨flssa, lss⟩ }
  | .xidfc flesa lse => { s with xidfc := ⟨flesa, lse⟩ }
  | .rxbc rbsa => { s with rxbc := ⟨rbsa⟩ }
  | .rxesc rbds f0ds f1ds => { s with rxesc := ⟨rbds, f0ds, f1ds⟩ }
  | .rxf0c fom fwm fs fsa => { s with rxf0c := ⟨fom, fwm, fs, fsa⟩ }
  | .rxf1c fom fwm fs fsa => { s with rxf1c := ⟨fom, fwm, fs, fsa⟩ }
  | .txbc tfqm tfqs ndtb tbsa => { s with txbc := ⟨tfqm, tfqs, ndtb, tbsa⟩ }
  | .txesc tbds => { s with txesc := ⟨tbds⟩ }
  | .txefc efwm efs efsa => { s with txefc := ⟨efwm, efs, efsa⟩ }

/-- Applying a list of register writes in order. -/
def applyWrites (s : RegState) (l : List RegWrite) : RegState :=
  l.foldl applyWrite s

/-- The sequence of register writes performed by the body of
`apply_ram_config` after the addressability check, in source order.
Addresses are written through an `as u16` cast and element counts through an
`as u8` cast. -/
def ramWrites (mem : SharedMemoryInner) (cap : Capacities) (config : RamConfig) :
    List RegWrite :=
  [ .sidfc (mem.filters_standard.addr % 65536) (mem.filters_standard.len % 256),
    .xidfc (mem.filters_extended.addr % 65536) (mem.filters_extended.len % 256),
    .rxbc (mem.rx_dedicated_buffers.addr % 65536),
    .rxesc cap.rxBufferMessageReg cap.rxFifo0MessageReg cap.rxFifo1MessageReg,
    .rxf0c config.rxf0.mode config.rxf0.watermark (mem.rx_fifo_0.len % 256)
      (mem.rx_fifo_0.addr % 65536),
    .rxf1c config.rxf1.mode config.rxf1.watermark (mem.rx_fifo_1.len % 256)
      (mem.rx_fifo_1.addr % 65536),
    .txbc config.txbc.mode (cap.txBuffers - cap.dedicatedTxBuffers)
      cap.dedicatedTxBuffers (mem.tx_buffers.addr % 65536),
    .txesc cap.txMessageReg,
    .txefc config.txefc.watermark (mem.tx_event_fifo.len % 256)
      (mem.tx_event_fifo.addr % 65536) ]

/-- `apply_ram_config`: validate addressability, then program the region
registers.  Returns the write log actually performed together with the
error, if any. -/
def apply_ram_config (mem : SharedMemoryInner) (cap : Capacities)
    (config : RamConfig) : List RegWrite × Option ConfigurationError :=
  if mem.is_addressable then (ramWrites mem cap config, none)
  else ([], some .memoryNotAddressable)

/-! ## The bit-timing calculator (`apply_bus_config`) -/

/-- The register updates performed on the success path of
`apply_bus_config`, in source order: `nbtp` write, `tscc` write, `cccr`
modify (`fdoe`), `dbtp` modify (`dbrp := 2`), `cccr` modify (`brse`), `gfc`
write, then `set_test` (`cccr.testEnabled` and `testr.lbck` modifies). -/
def busConfigWrites (config : CanConfig) (d : Nat) (regs : RegState) : RegState :=
  let r1 := { regs with nbtp := ⟨config.timing.sjw, config.timing.phase_seg_1,
    config.timing.phase_seg_2, (d - 1) % 65536⟩ }
  let r2 := { r1 with tscc := ⟨config.timing.ts_select, config.timing.ts_prescale - 1⟩ }
  let r3 := { r2 with cccr := { r2.cccr with fdoe := config.fd_mode } }
  let r4 := { r3 with dbtp := ⟨2⟩ }
  let r5 := { r4 with cccr := { r4.cccr with brse := config.bit_rate_switching } }
  let r6 := { r5 with gfc := ⟨config.nm_std, config.nm_ext⟩ }
  match config.mode with
  | .disabled =>
      { r6 with cccr := { r6.cccr with testEnabled := false }, testr := ⟨false⟩ }
  | .loopback =>
      { r6 with cccr := { r6.cccr with testEnabled := true }, testr := ⟨true⟩ }

/-- The divider computed by `apply_bus_config` in `f32` arithmetic:
`(c as f32) / ((f as f32) * (q as f32))`. -/
def busDivider (c f q : Nat) : F32 :=
  F32.div (F32.ofU32 c) (F32.mul (F32.ofU32 f) (F32.ofU32 q))

/-- `apply_bus_config` from `src/bus.rs`: validate the timestamp prescaler,
the requested frequency and the quanta count, compute the `f32` divider,
guard it, truncate it, recheck the achieved bus frequency in integer
arithmetic, and on success perform the register writes.  `c` is the
peripheral clock in Hz (`dependencies.can_clock()`), `f` the requested bus
frequency in Hz. -/
def apply_bus_config (c f : Nat) (config : CanConfig) (regs : RegState) :
    Except ConfigurationError RegState :=
  if ¬ (1 ≤ config.timing.ts_prescale ∧ config.timing.ts_prescale ≤ 16) then
    .error .invalidTimeStampPrescaler
  else if f = 0 then .error .stoppedOutputClock
  else if config.timing.quanta = 0 then .error .zeroQuanta
  else
    let divider := busDivider c f config.timing.quanta
    if divider.isNaN then .error .dividerIsNaN
    else if divider.isInf then .error .dividerIsInf
    else if divider.ltQ 1 then .error .zeroDivider
    else if divider.geQ 512 then .error (.invalidDivider divider)
    else
      let d := divider.truncU32
      let real_output := c / (d * config.timing.quanta)
      if real_output ≠ f then .error (.bitTimeRounding real_output)
      else .ok (busConfigWrites config d regs)

/-! ## Peripheral construction (`CanConfigurable::new`) and `finalize` -/

/-- An externally visible action of the construction sequence: a message-RAM
register write, a requested `INIT` transition (`set_init`), the
configuration-change-enable request, or the bit-timing register
programming. -/
inductive Event where
  | ram : RegWrite → Event
  | setInit : Bool → Event
  | setCCE : Event
  | busTiming : Event
deriving DecidableEq

/-- `CanConfigurable::new`: program the RAM layout, enter configuration mode
(`set_init(true)` then `CCE`), then apply the bus config.  Returns the event
trace together with the result; errors abort construction. -/
def new (c f : Nat) (canCfg : CanConfig) (ramCfg : RamConfig)
    (cap : Capacities) (mem : SharedMemoryInner) (regs : RegState) :
    List Event × Except ConfigurationError RegState :=
  match apply_ram_config mem cap ramCfg with
  | (ws, some e) => (ws.map Event.ram, .error e)
  | (ws, none) =>
    let regs1 := applyWrites regs ws
    let regs2 := { regs1 with cccr := { regs1.cccr with init := true } }
    let regs3 := { regs2 with cccr := { regs2.cccr with cce := true } }
    let evts := ws.map Event.ram ++ [Event.setInit true, Event.setCCE]
    match apply_bus_config c f canCfg regs3 with
    | .error e => (evts, .error e)
    | .ok regs4 => (evts ++ [Event.busTiming], .ok regs4)

/-- `finalize`: clear `INIT`, entering normal operation (the transition to
the Operational state). -/
def finalize (regs : RegState) : List Event × RegState :=
  ([Event.setInit false], { regs with cccr := { regs.cccr with init := false } })

deriving instance DecidableEq for Except

/-! ## Exactness of the `f32` pipeline on small and dyadic operands -/

theorem ofU32_zero : F32.ofU32 0 = .finite 0 := by decide

theorem ofU32_dyadic {m j : ℕ} (hm0 : 0 < m) (hm : m ≤ 2 ^ 24)
    (hsz : m * 2 ^ j < 2 ^ 32) :
    F32.ofU32 (m * 2 ^ j) = .finite ((m * 2 ^ j : ℕ) : ℚ) := by
  unfold F32.ofU32 F32.roundQ
  have hcast : (mkRat ((m * 2 ^ j : ℕ) : ℤ) 1 : ℚ) = ((m * 2 ^ j : ℕ) : ℚ) := by
    rw [Rat.mkRat_one]
    norm_cast
  have hx : ((m * 2 ^ j : ℕ) : ℚ) = (m : ℚ) * (2 : ℚ) ^ (j : ℤ) := by
    push_cast
    rw [zpow_natCast]
  rw [hcast, hx, rnd32_dyadic _ hm0 hm]
  have hbound : (m : ℚ) * (2 : ℚ) ^ (j : ℤ) < (2 : ℚ) ^ (128 : ℤ) := by
    have h32 : ((m * 2 ^ j : ℕ) : ℚ) < ((2 ^ 32 : ℕ) : ℚ) := by exact_mod_cast hsz
    rw [hx] at h32
    have h2 : ((2 ^ 32 : ℕ) : ℚ) = (2 : ℚ) ^ (32 : ℤ) := by
      push_cast
      norm_num
    rw [h2] at h32
    exact lt_of_lt_of_le h32
      ((zpow_le_zpow_iff_right₀ one_lt_two).mpr (by omega))
  rw [if_neg (by rw [pow2_eq]; exact not_le.mpr hbound), ← hx]

theorem ofU32_small {n : ℕ} (hn0 : 0 < n) (hn : n ≤ 2 ^ 24) :
    F32.ofU32 n = .finite (n : ℚ) := by
  have h := ofU32_dyadic (m := n) (j := 0) hn0 hn
    (by simpa using lt_of_le_of_lt hn (by norm_num))
  simpa using h

theorem f32mul_exact {a b : ℕ} (ha : 0 < a) (hb : 0 < b) (hab : a * b ≤ 2 ^ 24) :
    F32.mul (.finite (a : ℚ)) (.finite (b : ℚ)) = .finite ((a * b : ℕ) : ℚ) := by
  show F32.roundQ (qmul (a : ℚ) (b : ℚ)) = _
  unfold F32.roundQ
  rw [qmul_eq]
  have h : (a : ℚ) * (b : ℚ) = ((a * b : ℕ) : ℚ) := by push_cast; ring
  rw [h, rnd32_natCast (by positivity) hab]
  have hbound : ((a * b : ℕ) : ℚ) < (2 : ℚ) ^ (128 : ℤ) := by
    have h1 : ((a * b : ℕ) : ℚ) ≤ ((2 ^ 24 : ℕ) : ℚ) := by exact_mod_cast hab
    have h2 : ((2 ^ 24 : ℕ) : ℚ) < (2 : ℚ) ^ (128 : ℤ) := by norm_num
    linarith
  rw [if_neg (by rw [pow2_eq]; exact not_le.mpr hbound)]

theorem f32div_exact {c n d : ℕ} (hn : 0 < n) (hd0 : 0 < d) (hd : d ≤ 2 ^ 24)
    (hc : c = d * n) :
    F32.div (.finite (c : ℚ)) (.finite (n : ℚ)) = .finite (d : ℚ) := by
  have hnq : (0 : ℚ) < (n : ℚ) := by exact_mod_cast hn
  show (if (n : ℚ) = 0 then _ else F32.roundQ (qdivPos (c : ℚ) (n : ℚ))) = _
  rw [if_neg hnq.ne']
  unfold F32.roundQ
  rw [qdivPos_eq _ hnq]
  have hq : (c : ℚ) / (n : ℚ) = (d : ℚ) := by
    rw [hc]
    push_cast
    rw [mul_div_assoc, div_self hnq.ne', mul_one]
  rw [hq, rnd32_natCast hd0 hd]
  have hbound : ((d : ℕ) : ℚ) < (2 : ℚ) ^ (128 : ℤ) := by
    have h1 : ((d : ℕ) : ℚ) ≤ ((2 ^ 24 : ℕ) : ℚ) := by exact_mod_cast hd
    have h2 : ((2 ^ 24 : ℕ) : ℚ) < (2 : ℚ) ^ (128 : ℤ) := by norm_num
    linarith
  rw [if_neg (by rw [pow2_eq]; exact not_le.mpr hbound)]

/-- Exact evaluation of the whole divider pipeline when the clock is an
exact small multiple: for `c = d * (f * q) ≤ 2 ^ 24` every conversion,
the product and the division are exact in `f32`. -/
theorem busDivider_exact_small {f q d : ℕ} (hf : 0 < f) (hq : 0 < q)
    (hd0 : 0 < d) (hc : d * (f * q) ≤ 2 ^ 24) :
    busDivider (d * (f * q)) f q = .finite (d : ℚ) := by
  have hfq0 : 0 < f * q := Nat.mul_pos hf hq
  have hc0 : 0 < d * (f * q) := Nat.mul_pos hd0 hfq0
  have hfq : f * q ≤ 2 ^ 24 := le_trans (Nat.le_mul_of_pos_left _ hd0) hc
  have hfle : f ≤ 2 ^ 24 := le_trans (Nat.le_mul_of_pos_right _ hq) hfq
  have hqle : q ≤ 2 ^ 24 := le_trans (Nat.le_mul_of_pos_left _ hf) hfq
  have hdle : d ≤ 2 ^ 24 := le_trans (Nat.le_mul_of_pos_right _ hfq0) hc
  unfold busDivider
  rw [ofU32_small hc0 hc, ofU32_small hf hfle, ofU32_small hq hqle,
    f32mul_exact hf hq hfq, f32div_exact hfq0 hd0 hdle rfl]

/-- Exact evaluation at the upper divider edge: for `c = 512 * (f * q)`
fitting in `u32`, the divider computes to exactly `512`. -/
theorem busDivider_upper {f q : ℕ} (hf : 0 < f) (hq : 0 < q)
    (hsz : 512 * (f * q) < 2 ^ 32) :
    busDivider (512 * (f * q)) f q = .finite 512 := by
  have hfq0 : 0 < f * q := Nat.mul_pos hf hq
  have hfq : f * q < 2 ^ 23 := by omega
  have hfq24 : f * q ≤ 2 ^ 24 := by omega
  have hfle : f ≤ 2 ^ 24 := le_trans (Nat.le_mul_of_pos_right _ hq) hfq24
  have hqle : q ≤ 2 ^ 24 := le_trans (Nat.le_mul_of_pos_left _ hf) hfq24
  have hrw : 512 * (f * q) = (f * q) * 2 ^ 9 := by ring
  unfold busDivider
  rw [hrw, ofU32_dyadic hfq0 hfq24 (by omega),
    ofU32_small hf hfle, ofU32_small hq hqle, f32mul_exact hf hq hfq24]
  have h := f32div_exact (c := (f * q) * 2 ^ 9) (n := f * q) (d := 512)
    hfq0 (by norm_num) (by norm_num) (by ring)
  rw [h]
  norm_num

/-- Exact rejection at the lower edge: a clock strictly below one quantum's
worth of frequency, with `f * q` exactly representable, gives a divider
strictly below `1`. -/
theorem busDivider_lower {c f q : ℕ} (hf : 0 < f) (hq : 0 < q)
    (hlt : c < f * q) (hfq : f * q ≤ 2 ^ 24) :
    ∃ v : ℚ, busDivider c f q = .finite v ∧ v < 1 := by
  have hfq0 : 0 < f * q := Nat.mul_pos hf hq
  have hfqq : (0 : ℚ) < ((f * q : ℕ) : ℚ) := by exact_mod_cast hfq0
  have hfle : f ≤ 2 ^ 24 := le_trans (Nat.le_mul_of_pos_right _ hq) hfq
  have hqle : q ≤ 2 ^ 24 := le_trans (Nat.le_mul_of_pos_left _ hf) hfq
  unfold busDivider
  rw [ofU32_small hf hfle, ofU32_small hq hqle, f32mul_exact hf hq hfq]
  rcases Nat.eq_zero_or_pos c with hc0 | hc0
  · subst hc0
    rw [ofU32_zero]
    refine ⟨0, ?_, by norm_num⟩
    show (if ((f * q : ℕ) : ℚ) = 0 then _ else F32.roundQ (qdivPos 0 ((f * q : ℕ) : ℚ))) = _
    rw [if_neg hfqq.ne']
    unfold F32.roundQ
    rw [qdivPos_eq _ hfqq, zero_div, rnd32_zero]
    rw [if_neg (by rw [pow2_eq]; norm_num)]
  · have hcle : c ≤ 2 ^ 24 := by omega
    rw [ofU32_small hc0 hcle]
    show ∃ v, (if ((f * q : ℕ) : ℚ) = 0 then _
      else F32.roundQ (qdivPos (c : ℚ) ((f * q : ℕ) : ℚ))) = .finite v ∧ v < 1
    rw [if_neg hfqq.ne']
    unfold F32.roundQ
    rw [qdivPos_eq _ hfqq]
    have hx0 : (0 : ℚ) < (c : ℚ) / ((f * q : ℕ) : ℚ) := by
      apply div_pos _ hfqq
      exact_mod_cast hc0
    have hub : ((c : ℚ) / ((f * q : ℕ) : ℚ)) * 16777216 ≤ 16777215 := by
      rw [div_mul_eq_mul_div, div_le_iff₀ hfqq]
      have hnat : c * 16777216 ≤ 16777215 * (f * q) := by nlinarith
      exact_mod_cast hnat
    have hsmall := rnd32_lt_one hx0 hub
    refine ⟨rnd32 ((c : ℚ) / ((f * q : ℕ) : ℚ)), ?_, hsmall⟩
    rw [if_neg (by rw [pow2_eq]; intro hcon; nlinarith [hsmall])]

/-- Evaluation of `apply_bus_config` once the divider is known to be a
finite `f32` value `v`: the NaN/∞ guards pass and the remaining control flow
is decided by `v` and the integer recomputation. -/
theorem apply_bus_config_eq_of_finite (c f : Nat) (cfg : CanConfig)
    (regs : RegState) (v : ℚ)
    (hts : 1 ≤ cfg.timing.ts_prescale ∧ cfg.timing.ts_prescale ≤ 16)
    (hf : f ≠ 0)
    (hdiv : busDivider c f cfg.timing.quanta = .finite v) :
    apply_bus_config c f cfg regs =
      if v < 1 then .error .zeroDivider
      else if 512 ≤ v then .error (.invalidDivider (.finite v))
      else if c / (v.floor.toNat * cfg.timing.quanta) ≠ f then
        .error (.bitTimeRounding (c / (v.floor.toNat * cfg.timing.quanta)))
      else .ok (busConfigWrites cfg v.floor.toNat regs) := by
  unfold apply_bus_config
  rw [if_neg (not_not_intro hts), if_neg hf,
    if_neg (show ¬cfg.timing.quanta = 0 by simp [BusTiming.quanta])]
  simp only [hdiv, F32.isNaN, F32.isInf, F32.ltQ, F32.geQ, F32.truncU32,
    Bool.false_eq_true, if_false, decide_eq_true_eq]

/-! ## Concrete fixtures used by witnesses and counterexamples -/

/-- A well-formed bus config: `sjw 1`, segments `10`/`5` (quanta 16),
`ts_prescale 1`. -/
def cfgW : CanConfig := ⟨⟨1, 10, 5, 1, 0⟩, false, false, 0, 0, .disabled⟩

/-- Segments `38`/`20` (quanta 59), `ts_prescale 1`. -/
def cfgQ59 : CanConfig := ⟨⟨1, 38, 20, 1, 0⟩, false, false, 0, 0, .disabled⟩

/-- Segments `200`/`94` (quanta 295), `ts_prescale 1`. -/
def cfgQ295 : CanConfig := ⟨⟨1, 200, 94, 1, 0⟩, false, false, 0, 0, .disabled⟩

/-- A config whose timestamp prescaler `0` is out of range. -/
def cfgBadTs : CanConfig := ⟨⟨1, 10, 5, 0, 0⟩, false, false, 0, 0, .disabled⟩

/-- A plain RAM config. -/
def ram0 : RamConfig := ⟨⟨false, 0⟩, ⟨false, 0⟩, ⟨false⟩, ⟨0⟩⟩

/-- Build-time capacities: element-size codes `7`, four tx buffers of which
two are dedicated. -/
def cap0 : Capacities := ⟨7, 7, 7, 7, 4, 2⟩

/-- A memory window fully inside the 64 KiB span. -/
def memGood : SharedMemoryInner :=
  ⟨⟨0, 8, 32⟩, ⟨32, 8, 64⟩, ⟨96, 4, 64⟩, ⟨160, 4, 64⟩, ⟨224, 4, 64⟩,
    ⟨288, 4, 64⟩, ⟨352, 4, 32⟩⟩

/-- A memory window whose first region ends beyond the 64 KiB span
(`60000 + 10000 > 65536`). -/
def memBad : SharedMemoryInner :=
  ⟨⟨60000, 8, 10000⟩, ⟨32, 8, 64⟩, ⟨96, 4, 64⟩, ⟨160, 4, 64⟩, ⟨224, 4, 64⟩,
    ⟨288, 4, 64⟩, ⟨352, 4, 32⟩⟩

/-! ## Claim theorems -/

/-- **C3**: a memory window that is not addressable makes `apply_ram_config`
return `MemoryNotAddressable` with an empty register-write log — the
addressability check precedes every register write, so nothing is
programmed. -/
theorem c3_ram_not_addressable_no_writes (mem : SharedMemoryInner)
    (cap : Capacities) (config : RamConfig)
    (h : mem.is_addressable = false) :
    apply_ram_config mem cap config = ([], some .memoryNotAddressable) := by
  simp [apply_ram_config, h]

/-- Witness for `c3_ram_not_addressable_no_writes` at a concrete
non-addressable window. -/
theorem c3_witness :
    SharedMemoryInner.is_addressable memBad = false ∧
    apply_ram_config memBad cap0 ram0 =
      ([], some ConfigurationError.memoryNotAddressable) :=
  ⟨by decide, c3_ram_not_addressable_no_writes memBad cap0 ram0 (by decide)⟩

/-- **C8**: the RAM layout planner is idempotent — on a valid window the
write list is a deterministic function of the window and the config, and
replaying it leaves the register block unchanged (every write is a
full-register write of the same field values). -/
theorem c8_ram_config_idempotent (mem : SharedMemoryInner) (cap : Capacities)
    (config : RamConfig) (l : List RegWrite) (s : RegState)
    (h : apply_ram_config mem cap config = (l, none)) :
    applyWrites (applyWrites s l) l = applyWrites s l := by
  unfold apply_ram_config at h
  split at h
  · next =>
    have hl : l = ramWrites mem cap config := by
      injection h with h1 h2
      exact h1.symm
    subst hl
    dsimp only [ramWrites, applyWrites, List.foldl, applyWrite]
  · next =>
    injection h with h1 h2
    simp at h2

/-- Witness for `c8_ram_config_idempotent` at a concrete valid window. -/
theorem c8_witness :
    applyWrites (applyWrites RegState.reset (ramWrites memGood cap0 ram0))
        (ramWrites memGood cap0 ram0) =
      applyWrites RegState.reset (ramWrites memGood cap0 ram0) :=
  c8_ram_config_idempotent memGood cap0 ram0 (ramWrites memGood cap0 ram0)
    RegState.reset (by decide)

/-- **C5**: a construction that returns a `ConfigurationError` never emits
the transition to normal operation (`set_init(false)`, the Operational
state); only `finalize` — which requires the successfully constructed
peripheral — does. -/
theorem c5_error_never_operational (c f : Nat) (canCfg : CanConfig)
    (ramCfg : RamConfig) (cap : Capacities) (mem : SharedMemoryInner)
    (regs : RegState) (e : ConfigurationError)
    (h : (new c f canCfg ramCfg cap mem regs).2 = .error e) :
    Event.setInit false ∉ (new c f canCfg ramCfg cap mem regs).1 := by
  unfold new
  rcases hr : apply_ram_config mem cap ramCfg with ⟨ws, oe⟩
  cases oe with
  | some e' => simp [List.mem_map]
  | none =>
    simp only []
    split
    · simp [List.mem_map]
    · simp [List.mem_map]

/-- Witness for `c5_error_never_operational` at a concrete failing
construction. -/
theorem c5_witness :
    (new 0 0 cfgW ram0 cap0 memBad RegState.reset).2 =
      .error ConfigurationError.memoryNotAddressable ∧
    Event.setInit false ∉ (new 0 0 cfgW ram0 cap0 memBad RegState.reset).1 :=
  ⟨by decide, c5_error_never_operational 0 0 cfgW ram0 cap0 memBad
    RegState.reset ConfigurationError.memoryNotAddressable (by decide)⟩

/-- **C4 counterexample**: with an out-of-range timestamp prescaler *and* a
non-addressable memory window, construction fails with
`MemoryNotAddressable`, not `InvalidTimeStampPrescaler` — the
memory-addressability check runs before the prescaler check, refuting the
claim that the prescaler check precedes all other validation. -/
theorem c4_counterexample :
    cfgBadTs.timing.ts_prescale = 0 ∧
    memBad.is_addressable = false ∧
    (new 8000000 100000 cfgBadTs ram0 cap0 memBad RegState.reset).2 =
      .error ConfigurationError.memoryNotAddressable ∧
    ConfigurationError.memoryNotAddressable ≠
      ConfigurationError.invalidTimeStampPrescaler := by decide

/-- **C4 amended**: an out-of-range `ts_prescale` makes `apply_bus_config`
fail with `InvalidTimeStampPrescaler` before any of its other validations
(zero frequency, zero quanta, divider guards), and construction reports it
whenever the memory window itself is addressable. -/
theorem c4_amended (c f : Nat) (cfg : CanConfig) (regs : RegState)
    (h : ¬(1 ≤ cfg.timing.ts_prescale ∧ cfg.timing.ts_prescale ≤ 16)) :
    apply_bus_config c f cfg regs = .error .invalidTimeStampPrescaler ∧
    ∀ (ramCfg : RamConfig) (cap : Capacities) (mem : SharedMemoryInner)
      (regs' : RegState), mem.is_addressable = true →
      (new c f cfg ramCfg cap mem regs').2 =
        .error .invalidTimeStampPrescaler := by
  have hgen : ∀ r : RegState,
      apply_bus_config c f cfg r = .error .invalidTimeStampPrescaler := by
    intro r
    unfold apply_bus_config
    rw [if_pos h]
  refine ⟨hgen regs, ?_⟩
  intro ramCfg cap mem regs' hmem
  simp [new, apply_ram_config, hmem, hgen]

/-- Witness for `c4_amended` at a concrete out-of-range prescaler. -/
theorem c4_witness :
    apply_bus_config 1 1 cfgBadTs RegState.reset =
      .error ConfigurationError.invalidTimeStampPrescaler ∧
    ∀ (ramCfg : RamConfig) (cap : Capacities) (mem : SharedMemoryInner)
      (regs' : RegState), mem.is_addressable = true →
      (new 1 1 cfgBadTs ramCfg cap mem regs').2 =
        .error ConfigurationError.invalidTimeStampPrescaler :=
  c4_amended 1 1 cfgBadTs RegState.reset (by decide)

/-- Shape of a successful `apply_bus_config` run: the prescaler was in
range, the frequency nonzero, the register block is the one produced by
`busConfigWrites` with the truncated divider, and the integer recomputation
matched. -/
theorem apply_bus_config_ok_shape (c f : Nat) (cfg : CanConfig)
    (regs regs' : RegState)
    (h : apply_bus_config c f cfg regs = .ok regs') :
    (1 ≤ cfg.timing.ts_prescale ∧ cfg.timing.ts_prescale ≤ 16) ∧ f ≠ 0 ∧
    regs' = busConfigWrites cfg
      ((busDivider c f cfg.timing.quanta).truncU32) regs ∧
    c / ((busDivider c f cfg.timing.quanta).truncU32 * cfg.timing.quanta) = f := by
  unfold apply_bus_config at h
  split at h
  · next => simp at h
  · next hts =>
    rw [not_not] at hts
    split at h
    · next => simp at h
    · next hf =>
      split at h
      · next => simp at h
      · next hq =>
        dsimp only [] at h
        split at h
        · next => simp at h
        · next hnan =>
          split at h
          · next => simp at h
          · next hinf =>
            split at h
            · next => simp at h
            · next hlt =>
              split at h
              · next => simp at h
              · next hge =>
                split at h
                · next => simp at h
                · next hreal =>
                  rw [not_ne_iff] at hreal
                  injection h with h2
                  exact ⟨hts, hf, h2.symm, hreal⟩

/-- **C9**: on every successful configuration the timestamp prescaler field
`tcp` is written as `ts_prescale - 1` (hardware prescaler is `1 + tcp`). -/
theorem c9_tcp_field (c f : Nat) (cfg : CanConfig) (regs regs' : RegState)
    (h : apply_bus_config c f cfg regs = .ok regs') :
    regs'.tscc.tcp = cfg.timing.ts_prescale - 1 ∧
    1 ≤ cfg.timing.ts_prescale ∧ cfg.timing.ts_prescale ≤ 16 := by
  obtain ⟨hts, -, hshape, -⟩ := apply_bus_config_ok_shape c f cfg regs regs' h
  refine ⟨?_, hts⟩
  rw [hshape]
  cases hm : cfg.mode <;> simp [busConfigWrites, hm]

/-- Witness for `c9_tcp_field`: the successful run at 8 MHz clock, 100 kHz
bus, quanta 16 writes `tcp = 0` for `ts_prescale = 1`. -/
theorem c9_witness :
    ((apply_bus_config 8000000 100000 cfgW RegState.reset).toOption.getD
        RegState.reset).tscc.tcp = cfgW.timing.ts_prescale - 1 ∧
    1 ≤ cfgW.timing.ts_prescale ∧ cfgW.timing.ts_prescale ≤ 16 :=
  c9_tcp_field 8000000 100000 cfgW RegState.reset _ (by decide)

/-- **C10**: on every successful configuration the data bit-rate prescaler
field `dbrp` is written with the constant `2`, independent of all inputs. -/
theorem c10_dbrp_field (c f : Nat) (cfg : CanConfig) (regs regs' : RegState)
    (h : apply_bus_config c f cfg regs = .ok regs') :
    regs'.dbtp.dbrp = 2 := by
  obtain ⟨-, -, hshape, -⟩ := apply_bus_config_ok_shape c f cfg regs regs' h
  rw [hshape]
  cases hm : cfg.mode <;> simp [busConfigWrites, hm]

/-- Witness for `c10_dbrp_field` at a concrete successful run. -/
theorem c10_witness :
    ((apply_bus_config 1600000 100000 cfgW RegState.reset).toOption.getD
        RegState.reset).dbtp.dbrp = 2 :=
  c10_dbrp_field 1600000 100000 cfgW RegState.reset _ (by decide)

/-- **C2**: once the guards have passed with a finite divider `v`, a failed
integer recomputation `c / (⌊v⌋ * q) ≠ f` always yields
`BitTimeRounding` carrying the actual achievable output, and on success the
programmed divider (`nbrp + 1`) reproduces exactly the requested frequency
under the integer recomputation. -/
theorem c2_rounding_refused (c f : Nat) (cfg : CanConfig) (regs : RegState)
    (v : ℚ)
    (hts : 1 ≤ cfg.timing.ts_prescale ∧ cfg.timing.ts_prescale ≤ 16)
    (hf : f ≠ 0)
    (hdiv : busDivider c f cfg.timing.quanta = .finite v)
    (h1 : 1 ≤ v) (h512 : v < 512) :
    (c / (v.floor.toNat * cfg.timing.quanta) ≠ f →
      apply_bus_config c f cfg regs =
        .error (.bitTimeRounding (c / (v.floor.toNat * cfg.timing.quanta)))) ∧
    ∀ regs', apply_bus_config c f cfg regs = .ok regs' →
      c / ((regs'.nbtp.nbrp + 1) * cfg.timing.quanta) = f := by
  have hmain := apply_bus_config_eq_of_finite c f cfg regs v hts hf hdiv
  rw [if_neg (not_lt.mpr h1), if_neg (not_le.mpr h512)] at hmain
  have hd1 : 1 ≤ v.floor.toNat := by
    have hz : (1 : ℤ) ≤ ⌊v⌋ := Int.le_floor.mpr (by exact_mod_cast h1)
    rw [ratFloor_eq]
    omega
  have hd511 : v.floor.toNat ≤ 511 := by
    have hz : ⌊v⌋ < (512 : ℤ) := Int.floor_lt.mpr (by exact_mod_cast h512)
    rw [ratFloor_eq]
    omega
  constructor
  · intro hne
    rw [hmain, if_pos hne]
  · intro regs' hok
    rw [hmain] at hok
    split at hok
    · simp at hok
    · next hreal =>
      rw [not_ne_iff] at hreal
      injection hok with h2
      rw [← h2]
      have hnbrp : (busConfigWrites cfg v.floor.toNat regs).nbtp.nbrp =
          (v.floor.toNat - 1) % 65536 := by
        cases hm : cfg.mode <;> simp [busConfigWrites, hm]
      rw [hnbrp, Nat.mod_eq_of_lt (by omega),
        show v.floor.toNat - 1 + 1 = v.floor.toNat by omega]
      exact hreal

/-- Witness for `c2_rounding_refused`: at clock `8100000`, frequency
`100000`, quanta 16 the divider is exactly `5.0625`, truncated to `5`; the
recomputation gives `101250 ≠ 100000`, so the run returns
`BitTimeRounding 101250`. -/
theorem c2_witness :
    (8100000 / ((mkRat 81 16).floor.toNat * cfgW.timing.quanta) ≠ 100000 →
      apply_bus_config 8100000 100000 cfgW RegState.reset =
        .error (.bitTimeRounding
          (8100000 / ((mkRat 81 16).floor.toNat * cfgW.timing.quanta)))) ∧
    ∀ regs', apply_bus_config 8100000 100000 cfgW RegState.reset = .ok regs' →
      8100000 / ((regs'.nbtp.nbrp + 1) * cfgW.timing.quanta) = 100000 :=
  c2_rounding_refused 8100000 100000 cfgW RegState.reset (mkRat 81 16)
    (by decide) (by decide) (by decide) (by decide) (by decide)

/-- **C7**: whenever the divider has passed the NaN/∞ and range guards, the
unchecked truncation is safe: the value is finite, its truncation lies in
`[1, 511]`, well inside the `u32` range, so `to_int_unchecked` cannot
exhibit undefined behaviour. -/
theorem c7_trunc_safe (c f q : Nat)
    (hnan : (busDivider c f q).isNaN = false)
    (hinf : (busDivider c f q).isInf = false)
    (hlt : (busDivider c f q).ltQ 1 = false)
    (hge : (busDivider c f q).geQ 512 = false) :
    F32.truncSafe (busDivider c f q) ∧
    1 ≤ (busDivider c f q).truncU32 ∧
    (busDivider c f q).truncU32 ≤ 511 := by
  cases hd : busDivider c f q with
  | nan => rw [hd] at hnan; simp [F32.isNaN] at hnan
  | inf => rw [hd] at hinf; simp [F32.isInf] at hinf
  | finite v =>
    rw [hd] at hlt hge
    simp only [F32.ltQ, decide_eq_false_iff_not, not_lt] at hlt
    simp only [F32.geQ, decide_eq_false_iff_not, not_le] at hge
    have hfl1 : (1 : ℤ) ≤ ⌊v⌋ := Int.le_floor.mpr (by exact_mod_cast hlt)
    have hfl511 : ⌊v⌋ < 512 := Int.floor_lt.mpr (by exact_mod_cast hge)
    refine ⟨⟨v, rfl, by linarith, ?_⟩, ?_, ?_⟩
    · have h32 : (512 : ℚ) ≤ 2 ^ 32 := by norm_num
      linarith
    · simp only [F32.truncU32, ratFloor_eq]
      omega
    · simp only [F32.truncU32, ratFloor_eq]
      omega

/-- Witness for `c7_trunc_safe` at a concrete guard-passing input
(divider exactly `5`). -/
theorem c7_witness :
    F32.truncSafe (busDivider 8000000 100000 16) ∧
    1 ≤ (busDivider 8000000 100000 16).truncU32 ∧
    (busDivider 8000000 100000 16).truncU32 ≤ 511 :=
  c7_trunc_safe 8000000 100000 16 (by decide) (by decide) (by decide)
    (by decide)

/-- **C1 counterexample**: at clock `177664104`, frequency `12392`, quanta
`59` the exact integer divider is `243 ∈ [1, 511]` (`177664104 =
243 * 12392 * 59`), yet the calculation returns `BitTimeRounding 12443`
instead of succeeding: the `f32` conversion rounds the clock down to
`177664096`, the quotient `242.99998…` truncates to `242`, and the integer
recheck fails. -/
theorem c1_counterexample :
    177664104 = 243 * (12392 * cfgQ59.timing.quanta) ∧
    (1 ≤ 243 ∧ 243 ≤ 511) ∧
    apply_bus_config 177664104 12392 cfgQ59 RegState.reset =
      .error (ConfigurationError.bitTimeRounding 12443) := by decide

/-- **C1 amended**: for clocks up to `2 ^ 24` Hz the whole `f32` pipeline is
exact, and the original claim holds: if `c = d * f * q` with
`d ∈ [1, 511]`, the calculation succeeds and writes `d - 1` into the `nbrp`
prescaler field. -/
theorem c1_exact_divider (f d : Nat) (cfg : CanConfig) (regs : RegState)
    (hts : 1 ≤ cfg.timing.ts_prescale ∧ cfg.timing.ts_prescale ≤ 16)
    (hf : 0 < f) (hd1 : 1 ≤ d) (hd511 : d ≤ 511)
    (hc : d * (f * cfg.timing.quanta) ≤ 2 ^ 24) :
    ∃ regs', apply_bus_config (d * (f * cfg.timing.quanta)) f cfg regs =
        .ok regs' ∧ regs'.nbtp.nbrp = d - 1 := by
  have hq : 0 < cfg.timing.quanta := by unfold BusTiming.quanta; omega
  have hdiv := busDivider_exact_small hf hq hd1 hc
  have hmain := apply_bus_config_eq_of_finite (d * (f * cfg.timing.quanta)) f
    cfg regs (d : ℚ) hts (by omega) hdiv
  rw [if_neg (not_lt.mpr (by exact_mod_cast hd1)),
    if_neg (not_le.mpr (by exact_mod_cast (by omega : d < 512)))] at hmain
  have hfl : ((d : ℚ)).floor.toNat = d := by
    rw [ratFloor_eq, Int.floor_natCast, Int.toNat_natCast]
  rw [hfl] at hmain
  have hreal : d * (f * cfg.timing.quanta) / (d * cfg.timing.quanta) = f := by
    rw [show d * (f * cfg.timing.quanta) = f * (d * cfg.timing.quanta) by ring]
    exact Nat.mul_div_cancel f (by positivity)
  rw [hmain, if_neg (by rw [hreal]; exact not_ne_iff.mpr rfl)]
  refine ⟨_, rfl, ?_⟩
  have hnbrp : (busConfigWrites cfg d regs).nbtp.nbrp = (d - 1) % 65536 := by
    cases hm : cfg.mode <;> simp [busConfigWrites, hm]
  rw [hnbrp, Nat.mod_eq_of_lt (by omega)]

/-- Witness for `c1_exact_divider`: `c = 5 * 100000 * 16 = 8000000 ≤ 2^24`
succeeds with `nbrp = 4`. -/
theorem c1_witness :
    ∃ regs', apply_bus_config (5 * (100000 * cfgW.timing.quanta)) 100000 cfgW
        RegState.reset = .ok regs' ∧ regs'.nbtp.nbrp = 5 - 1 :=
  c1_exact_divider 100000 5 cfgW RegState.reset (by decide) (by decide)
    (by decide) (by decide) (by decide)

/-- **C6 counterexample**: at `c = 89452849 = 303230 * 295 - 1` (just below
`f * q`), the claim predicts `ZeroDivider`, but `c` and `f * q` round to the
same `f32` value `89452848`, the divider is exactly `1.0`, and the code
returns `BitTimeRounding 303229` instead. -/
theorem c6_counterexample :
    89452849 + 1 = 303230 * cfgQ295.timing.quanta ∧
    apply_bus_config 89452849 303230 cfgQ295 RegState.reset =
      .error (ConfigurationError.bitTimeRounding 303229) ∧
    ConfigurationError.bitTimeRounding 303229 ≠
      ConfigurationError.zeroDivider := by decide

/-- **C6 amended**: the guard semantics holds as claimed for the computed
`f32` divider — strictly below `1.0` gives `ZeroDivider`, at least `512.0`
gives `InvalidDivider` carrying the value; `c = 512 * f * q` (fitting in
`u32`) is always rejected at the upper edge with divider exactly `512`; and
`c` strictly below `f * q` yields `ZeroDivider` whenever `f * q ≤ 2 ^ 24`
(for larger `f * q` the rounded divider can reach `1.0`, see the
counterexample). -/
theorem c6_divider_edges (c f : Nat) (cfg : CanConfig) (regs : RegState)
    (hts : 1 ≤ cfg.timing.ts_prescale ∧ cfg.timing.ts_prescale ≤ 16)
    (hf : 0 < f) :
    (∀ v : ℚ, busDivider c f cfg.timing.quanta = .finite v → v < 1 →
      apply_bus_config c f cfg regs = .error .zeroDivider) ∧
    (∀ v : ℚ, busDivider c f cfg.timing.quanta = .finite v → 512 ≤ v →
      apply_bus_config c f cfg regs = .error (.invalidDivider (.finite v))) ∧
    (c = 512 * (f * cfg.timing.quanta) → c < 2 ^ 32 →
      apply_bus_config c f cfg regs = .error (.invalidDivider (.finite 512))) ∧
    (c < f * cfg.timing.quanta → f * cfg.timing.quanta ≤ 2 ^ 24 →
      apply_bus_config c f cfg regs = .error .zeroDivider) := by
  have hq : 0 < cfg.timing.quanta := by unfold BusTiming.quanta; omega
  have hfne : f ≠ 0 := by omega
  refine ⟨?_, ?_, ?_, ?_⟩
  · intro v hdiv hv
    rw [apply_bus_config_eq_of_finite c f cfg regs v hts hfne hdiv, if_pos hv]
  · intro v hdiv hv
    rw [apply_bus_config_eq_of_finite c f cfg regs v hts hfne hdiv,
      if_neg (not_lt.mpr (by linarith)), if_pos hv]
  · intro hc hsz
    subst hc
    have hdiv := busDivider_upper hf hq hsz
    rw [apply_bus_config_eq_of_finite _ f cfg regs 512 hts hfne hdiv,
      if_neg (not_lt.mpr (by norm_num)), if_pos (le_refl (512 : ℚ))]
  · intro hlt hfq
    obtain ⟨v, hdiv, hv⟩ := busDivider_lower hf hq hlt hfq
    rw [apply_bus_config_eq_of_finite c f cfg regs v hts hfne hdiv, if_pos hv]

/-- Witness for `c6_divider_edges` at `f = 1000`, quanta 16 (so that
`c = 512 * f * q = 8192000` falls under the upper-edge clause). -/
theorem c6_witness :
    (∀ v : ℚ, busDivider 8192000 1000 cfgW.timing.quanta = .finite v → v < 1 →
      apply_bus_config 8192000 1000 cfgW RegState.reset =
        .error .zeroDivider) ∧
    (∀ v : ℚ, busDivider 8192000 1000 cfgW.timing.quanta = .finite v →
      512 ≤ v →
      apply_bus_config 8192000 1000 cfgW RegState.reset =
        .error (.invalidDivider (.finite v))) ∧
    (8192000 = 512 * (1000 * cfgW.timing.quanta) → 8192000 < 2 ^ 32 →
      apply_bus_config 8192000 1000 cfgW RegState.reset =
        .error (.invalidDivider (.finite 512))) ∧
    (8192000 < 1000 * cfgW.timing.quanta → 1000 * cfgW.timing.quanta ≤ 2 ^ 24 →
      apply_bus_config 8192000 1000 cfgW RegState.reset =
        .error .zeroDivider) :=
  c6_divider_edges 8192000 1000 cfgW RegState.reset (by decide) (by decide)
